import Mathlib

/-!
Verification of the plmap crate: a lazy, order-preserving parallel map over
iterators (`src/pipeline.rs`, `src/scoped_pipeline.rs`, `src/mapper.rs`).

Shallow embedding notes.

The Rust `Mapper` trait is `apply(&mut self, v: In) -> Out`; we embed a mapper
as a state type `W` together with a step function `applyW : W → α → W × γ`
(new mapper state, produced output).  A worker thread owns one clone of the
mapper, so in the embedding each worker is identified with its current mapper
state.

The dispatch channel is a rendezvous (capacity-0) channel: a `send` completes
exactly when some idle worker `recv`s the item.  Which worker that is, is the
scheduler's choice; we make this nondeterminism explicit with a parameter
`sched : Nat → Nat` assigning the d-th dispatched item to worker
`sched d % workers.length`.  Theorems quantify over all `sched`, covering
every realizable assignment.  Because a worker's reply depends only on the
sequence of items the worker receives (which is the restriction of dispatch
order to that worker), the embedding computes each response at dispatch time
and stores it in the item's response slot; the FIFO waiting `queue` of the
Rust struct is therefore a `List γ` of (eventual) slot contents.

Worker panics (an irrecoverable capability fault) are embedded by
instantiating `W := Option σ`, `γ := Option β` via `stepE`: a `none` slot is
a response channel whose sender was dropped without a send, and collecting it
(`rx.recv().unwrap()`) is the fatal failure, embedded by `consumeRun`.
-/

namespace Plmap

/-- Embedding of the `Pipeline` struct of `src/pipeline.rs` (the
`ScopedPipeline` struct of `src/scoped_pipeline.rs` has exactly the same
fields up to lifetime bookkeeping).  `mapper` is the engine's own master
mapper state, `input` the remaining input iterator, `queue` the FIFO waiting
queue of response slots (already holding the response each slot will
deliver), `workers` the per-worker mapper clones (one entry per spawned
thread), `dispatchConnected` the state of the shared dispatch sender
(`false` once `drop` has replaced it with the disconnected stand-in), and
`dispatched` counts the work items sent so far (used to address the
scheduler). -/
structure Pipeline (α γ W : Type) where
  mapper : W
  input : List α
  queue : List γ
  dispatched : Nat
  workers : List W
  dispatchConnected : Bool

/-- `Pipeline::new` (src/pipeline.rs lines 30-56): spawn `nWorkers` threads,
each holding `mapper.clone()`, an empty waiting queue, and a fresh connected
dispatch channel. -/
def Pipeline.new (nWorkers : Nat) (mapper : W) (input : List α) : Pipeline α γ W :=
  { mapper := mapper
    input := input
    queue := []
    dispatched := 0
    workers := List.replicate nWorkers mapper
    dispatchConnected := true }

/-- One iteration of the refill loop body (src/pipeline.rs lines 91-95): a
fresh response channel is created, its receiver pushed to the back of the
waiting queue, and `(v, tx)` sent on the rendezvous dispatch channel, where
it is received by worker `sched dispatched % workers.length`, which applies
its mapper clone and replies on `tx`. -/
def dispatchOne (applyW : W → α → W × γ) (sched : Nat → Nat)
    (p : Pipeline α γ W) (v : α) : Pipeline α γ W :=
  let j := sched p.dispatched % p.workers.length
  let r := applyW (p.workers.getD j p.mapper) v
  { p with
    workers := p.workers.set j r.1
    queue := p.queue ++ [r.2]
    dispatched := p.dispatched + 1 }

/-- The refill loop of `next`, parameterised by the loop guard `c` applied to
`(queue.len(), workers.len())`: the owned variant (src/pipeline.rs line 89)
uses `queue.len() <= workers.len()`, the scoped variant
(src/scoped_pipeline.rs line 108) uses `queue.len() < workers.len()`.
While the guard holds, pull the next input; if the input is exhausted,
break; otherwise dispatch it. -/
def refillWith (c : Nat → Nat → Bool) (applyW : W → α → W × γ) (sched : Nat → Nat)
    (p : Pipeline α γ W) : Pipeline α γ W :=
  if c p.queue.length p.workers.length then
    match h : p.input with
    | [] => p
    | v :: rest => refillWith c applyW sched (dispatchOne applyW sched { p with input := rest } v)
  else p
termination_by p.input.length
decreasing_by
  simp [dispatchOne, h]

/-- The owned refill guard `self.queue.len() <= self.workers.len()`
(src/pipeline.rs line 89). -/
def cOwned : Nat → Nat → Bool := fun q w => decide (q ≤ w)

/-- The scoped refill guard `self.queue.len() < self.workers.len()`
(src/scoped_pipeline.rs line 108). -/
def cScoped : Nat → Nat → Bool := fun q w => decide (q < w)

/-- `next` (src/pipeline.rs lines 84-101 and src/scoped_pipeline.rs lines
103-123), parameterised by the refill guard.  If no workers were spawned,
pull one input and apply the engine's own mapper synchronously.  Otherwise
run the refill loop, then pop the front response slot and block on it
(`rx.recv().unwrap()`); an empty queue after refill ends the iterator. -/
def nextWith (c : Nat → Nat → Bool) (applyW : W → α → W × γ) (sched : Nat → Nat)
    (p : Pipeline α γ W) : Option γ × Pipeline α γ W :=
  if p.workers.isEmpty then
    match p.input with
    | [] => (none, p)
    | v :: rest =>
      (some (applyW p.mapper v).2, { p with input := rest, mapper := (applyW p.mapper v).1 })
  else
    match (refillWith c applyW sched p).queue with
    | [] => (none, refillWith c applyW sched p)
    | g :: qrest => (some g, { refillWith c applyW sched p with queue := qrest })

/-- `Pipeline::next` of the owned variant. -/
def Pipeline.next (applyW : W → α → W × γ) (sched : Nat → Nat) :
    Pipeline α γ W → Option γ × Pipeline α γ W :=
  nextWith cOwned applyW sched

/-- `ScopedPipeline::new` (src/scoped_pipeline.rs lines 37-73).  Identical to
`Pipeline::new` except for the clamp `let n_workers = n_workers.min(1);`
(line 43). -/
def ScopedPipeline.new (nWorkers : Nat) (mapper : W) (input : List α) : Pipeline α γ W :=
  Pipeline.new (min nWorkers 1) mapper input

/-- `ScopedPipeline::next` (src/scoped_pipeline.rs lines 103-123): as the
owned `next` but with the strict refill guard. -/
def ScopedPipeline.next (applyW : W → α → W × γ) (sched : Nat → Nat) :
    Pipeline α γ W → Option γ × Pipeline α γ W :=
  nextWith cScoped applyW sched

/-- Drive an iterator's `next` to exhaustion, collecting the produced values.
`fuel` is an upper bound on the number of calls; every theorem below
supplies enough fuel for the iterator to reach its `None`. -/
def runAllWith (nextFn : Pipeline α γ W → Option γ × Pipeline α γ W) :
    Nat → Pipeline α γ W → List γ
  | 0, _ => []
  | fuel + 1, p =>
    match nextFn p with
    | (none, _) => []
    | (some g, p') => g :: runAllWith nextFn fuel p'

/-- The full output stream of the owned pipeline: construct with
`Pipeline::new` and collect every value `next` yields. -/
def Pipeline.run (applyW : W → α → W × γ) (sched : Nat → Nat)
    (nWorkers : Nat) (m : W) (inputs : List α) : List γ :=
  runAllWith (nextWith cOwned applyW sched) (inputs.length + 1) (Pipeline.new nWorkers m inputs)

/-- The full output stream of the scoped pipeline. -/
def ScopedPipeline.run (applyW : W → α → W × γ) (sched : Nat → Nat)
    (nWorkers : Nat) (m : W) (inputs : List α) : List γ :=
  runAllWith (nextWith cScoped applyW sched) (inputs.length + 1)
    (ScopedPipeline.new nWorkers m inputs)

/-- State of the engine after `k` calls to `next`. -/
def iterNextWith (nextFn : Pipeline α γ W → Option γ × Pipeline α γ W) :
    Nat → Pipeline α γ W → Pipeline α γ W
  | 0, p => p
  | k + 1, p => iterNextWith nextFn k (nextFn p).2

/-- Owned-pipeline state after `k` calls to `next` starting from
`Pipeline::new`. -/
def ownedAfter (applyW : W → α → W × γ) (sched : Nat → Nat)
    (nWorkers : Nat) (m : W) (inputs : List α) (k : Nat) : Pipeline α γ W :=
  iterNextWith (nextWith cOwned applyW sched) k (Pipeline.new nWorkers m inputs)

/-- Scoped-pipeline state after `k` calls to `next` starting from
`ScopedPipeline::new`. -/
def scopedAfter (applyW : W → α → W × γ) (sched : Nat → Nat)
    (nWorkers : Nat) (m : W) (inputs : List α) (k : Nat) : Pipeline α γ W :=
  iterNextWith (nextWith cScoped applyW sched) k (ScopedPipeline.new nWorkers m inputs)

/-! ### Reference semantics (denotations the theorems compare the engine to) -/

/-- The responses produced for a sequence of dispatches, starting from
dispatch counter `d` and per-worker mapper states `ws`: the d-th item goes
to worker `sched d % ws.length`, which applies its mapper state and keeps
the updated state.  (`m` is a dummy default for `getD`; it is never selected
since the worker index is reduced modulo `ws.length`.) -/
def poolRun (applyW : W → α → W × γ) (sched : Nat → Nat) (m : W) :
    Nat → List W → List α → List γ
  | _, _, [] => []
  | d, ws, v :: rest =>
    (applyW (ws.getD (sched d % ws.length) m) v).2 ::
      poolRun applyW sched m (d + 1)
        (ws.set (sched d % ws.length) (applyW (ws.getD (sched d % ws.length) m) v).1) rest

/-- The per-worker mapper states after a sequence of dispatches. -/
def poolStates (applyW : W → α → W × γ) (sched : Nat → Nat) (m : W) :
    Nat → List W → List α → List W
  | _, ws, [] => ws
  | d, ws, v :: rest =>
    poolStates applyW sched m (d + 1)
      (ws.set (sched d % ws.length) (applyW (ws.getD (sched d % ws.length) m) v).1) rest

/-- The responses a pool of `w` fresh clones of `m` produces for `inputs`
under schedule `sched`, listed in dispatch order. -/
def poolMap (applyW : W → α → W × γ) (sched : Nat → Nat) (w : Nat) (m : W)
    (inputs : List α) : List γ :=
  poolRun applyW sched m 0 (List.replicate w m) inputs

/-- The ordinary sequential (stateful) map: one mapper state applied to every
input element in input order.  This is the spec's reference semantics for
`w = 0` (§4.2) and the sequential-run reference for single-instance
execution. -/
def seqMap (applyW : W → α → W × γ) : W → List α → List γ
  | _, [] => []
  | m, v :: rest => (applyW m v).2 :: seqMap applyW (applyW m v).1 rest

/-- The stream an engine state still owes its consumer: the queued responses
followed by the responses of the not-yet-dispatched inputs. -/
def pending (applyW : W → α → W × γ) (sched : Nat → Nat) (p : Pipeline α γ W) : List γ :=
  p.queue ++ poolRun applyW sched p.mapper p.dispatched p.workers p.input

/-! ### Basic facts about a single dispatch -/

@[simp]
theorem dispatchOne_input (applyW : W → α → W × γ) (sched : Nat → Nat)
    (p : Pipeline α γ W) (v : α) : (dispatchOne applyW sched p v).input = p.input := rfl

@[simp]
theorem dispatchOne_mapper (applyW : W → α → W × γ) (sched : Nat → Nat)
    (p : Pipeline α γ W) (v : α) : (dispatchOne applyW sched p v).mapper = p.mapper := rfl

@[simp]
theorem dispatchOne_connected (applyW : W → α → W × γ) (sched : Nat → Nat)
    (p : Pipeline α γ W) (v : α) :
    (dispatchOne applyW sched p v).dispatchConnected = p.dispatchConnected := rfl

@[simp]
theorem dispatchOne_workers_length (applyW : W → α → W × γ) (sched : Nat → Nat)
    (p : Pipeline α γ W) (v : α) :
    (dispatchOne applyW sched p v).workers.length = p.workers.length := by
  simp [dispatchOne]

@[simp]
theorem dispatchOne_queue_length (applyW : W → α → W × γ) (sched : Nat → Nat)
    (p : Pipeline α γ W) (v : α) :
    (dispatchOne applyW sched p v).queue.length = p.queue.length + 1 := by
  simp [dispatchOne]

/-- Dispatching the head of the input does not change the stream the engine
owes its consumer: the new queue entry is exactly the head of the
not-yet-dispatched part. -/
theorem pending_dispatchOne (applyW : W → α → W × γ) (sched : Nat → Nat)
    (p : Pipeline α γ W) (v : α) (rest : List α) (h : p.input = v :: rest) :
    pending applyW sched (dispatchOne applyW sched { p with input := rest } v) =
      pending applyW sched p := by
  simp [pending, dispatchOne, h, poolRun]

/-! ### The refill loop -/

/-- Bundled invariants of the refill loop: it moves responses from the
not-yet-dispatched part of `pending` into the queue while preserving
`pending` itself, the total count `input + queue`, the worker count, the
master mapper, and the dispatch-sender state; and on exit either the input
is exhausted or the loop guard is false. -/
theorem refillWith_spec (c : Nat → Nat → Bool) (applyW : W → α → W × γ)
    (sched : Nat → Nat) :
    ∀ n (p : Pipeline α γ W), p.input.length = n →
      pending applyW sched (refillWith c applyW sched p) = pending applyW sched p ∧
      (refillWith c applyW sched p).input.length + (refillWith c applyW sched p).queue.length
        = p.input.length + p.queue.length ∧
      (refillWith c applyW sched p).workers.length = p.workers.length ∧
      (refillWith c applyW sched p).mapper = p.mapper ∧
      (refillWith c applyW sched p).dispatchConnected = p.dispatchConnected ∧
      ((refillWith c applyW sched p).input = [] ∨
        c (refillWith c applyW sched p).queue.length
          (refillWith c applyW sched p).workers.length = false) := by
  intro n
  induction n with
  | zero =>
    intro p hp
    have hin : p.input = [] := List.length_eq_zero.mp hp
    rw [refillWith]
    by_cases hc : c p.queue.length p.workers.length
    · simp only [hc, if_true]
      split
      · exact ⟨rfl, rfl, rfl, rfl, rfl, Or.inl hin⟩
      · next v rest heq => rw [hin] at heq; cases heq
    · simp only [hc, if_false]
      exact ⟨rfl, rfl, rfl, rfl, rfl, Or.inl hin⟩
  | succ n ih =>
    intro p hp
    rw [refillWith]
    by_cases hc : c p.queue.length p.workers.length
    · simp only [hc, if_true]
      match hin : p.input with
      | [] => simp [hin] at hp
      | v :: rest =>
        have hrest : (dispatchOne applyW sched { p with input := rest } v).input.length = n := by
          simp only [dispatchOne_input]
          have : p.input.length = n + 1 := hp
          rw [hin] at this
          simpa using Nat.succ_injective this
        obtain ⟨h1, h2, h3, h4, h5, h6⟩ :=
          ih (dispatchOne applyW sched { p with input := rest } v) hrest
        refine ⟨h1.trans (pending_dispatchOne applyW sched p v rest hin), ?_, ?_, ?_, ?_, h6⟩
        · rw [h2]
          simp [hin]
          omega
        · rw [h3]; simp
        · rw [h4]; simp
        · rw [h5]; simp
    · simp only [hc, if_false]
      exact ⟨rfl, rfl, rfl, rfl, rfl, Or.inr (by simpa using hc)⟩

theorem refillWith_pending (c : Nat → Nat → Bool) (applyW : W → α → W × γ)
    (sched : Nat → Nat) (p : Pipeline α γ W) :
    pending applyW sched (refillWith c applyW sched p) = pending applyW sched p :=
  (refillWith_spec c applyW sched p.input.length p rfl).1

theorem refillWith_measure (c : Nat → Nat → Bool) (applyW : W → α → W × γ)
    (sched : Nat → Nat) (p : Pipeline α γ W) :
    (refillWith c applyW sched p).input.length + (refillWith c applyW sched p).queue.length
      = p.input.length + p.queue.length :=
  (refillWith_spec c applyW sched p.input.length p rfl).2.1

theorem refillWith_workers_length (c : Nat → Nat → Bool) (applyW : W → α → W × γ)
    (sched : Nat → Nat) (p : Pipeline α γ W) :
    (refillWith c applyW sched p).workers.length = p.workers.length :=
  (refillWith_spec c applyW sched p.input.length p rfl).2.2.1

theorem refillWith_mapper (c : Nat → Nat → Bool) (applyW : W → α → W × γ)
    (sched : Nat → Nat) (p : Pipeline α γ W) :
    (refillWith c applyW sched p).mapper = p.mapper :=
  (refillWith_spec c applyW sched p.input.length p rfl).2.2.2.1

theorem refillWith_connected (c : Nat → Nat → Bool) (applyW : W → α → W × γ)
    (sched : Nat → Nat) (p : Pipeline α γ W) :
    (refillWith c applyW sched p).dispatchConnected = p.dispatchConnected :=
  (refillWith_spec c applyW sched p.input.length p rfl).2.2.2.2.1

theorem refillWith_exit (c : Nat → Nat → Bool) (applyW : W → α → W × γ)
    (sched : Nat → Nat) (p : Pipeline α γ W) :
    (refillWith c applyW sched p).input = [] ∨
      c (refillWith c applyW sched p).queue.length
        (refillWith c applyW sched p).workers.length = false :=
  (refillWith_spec c applyW sched p.input.length p rfl).2.2.2.2.2

/-- If the loop guard only admits queue lengths up to `B`, a refill can grow
the queue to at most `B + 1` entries (or leave it as it was, if it was
already over the guard). -/
theorem refillWith_queue_le (c : Nat → Nat → Bool) (applyW : W → α → W × γ)
    (sched : Nat → Nat) (B : Nat) :
    ∀ n (p : Pipeline α γ W), p.input.length = n →
      (∀ q, c q p.workers.length = true → q ≤ B) →
      (refillWith c applyW sched p).queue.length ≤ max p.queue.length (B + 1) := by
  intro n
  induction n with
  | zero =>
    intro p hp _
    have hin : p.input = [] := List.length_eq_zero.mp hp
    rw [refillWith]
    by_cases hc : c p.queue.length p.workers.length
    · simp only [hc, if_true]
      split
      · exact le_max_left _ _
      · next v rest heq => rw [hin] at heq; cases heq
    · simp only [hc, if_false]
      exact le_max_left _ _
  | succ n ih =>
    intro p hp hB
    rw [refillWith]
    by_cases hc : c p.queue.length p.workers.length
    · simp only [hc, if_true]
      match hin : p.input with
      | [] => simp [hin] at hp
      | v :: rest =>
        have hq : p.queue.length ≤ B := hB _ hc
        have hrest : (dispatchOne applyW sched { p with input := rest } v).input.length = n := by
          simp only [dispatchOne_input]
          have : p.input.length = n + 1 := hp
          rw [hin] at this
          simpa using Nat.succ_injective this
        have hB' : ∀ q, c q (dispatchOne applyW sched { p with input := rest } v).workers.length
            = true → q ≤ B := by
          intro q hq'
          exact hB q (by simpa using hq')
        have := ih (dispatchOne applyW sched { p with input := rest } v) hrest hB'
        refine le_trans this ?_
        simp only [dispatchOne_queue_length]
        omega
    · simp only [hc, if_false]
      exact le_max_left _ _

/-- A refill whose guard is initially false does nothing. -/
theorem refillWith_of_guard_false (c : Nat → Nat → Bool) (applyW : W → α → W × γ)
    (sched : Nat → Nat) (p : Pipeline α γ W)
    (hc : c p.queue.length p.workers.length = false) :
    refillWith c applyW sched p = p := by
  rw [refillWith]
  simp [hc]

/-! ### Facts about the reference semantics -/

theorem poolRun_length (applyW : W → α → W × γ) (sched : Nat → Nat) (m : W) :
    ∀ (inputs : List α) (d : Nat) (ws : List W),
      (poolRun applyW sched m d ws inputs).length = inputs.length := by
  intro inputs
  induction inputs with
  | nil => intro d ws; rfl
  | cons v rest ih => intro d ws; simp [poolRun, ih]

theorem poolRun_pure (applyW : W → α → W × γ) (sched : Nat → Nat) (m : W)
    (f : α → γ) (hpure : ∀ s v, applyW s v = (s, f v)) :
    ∀ (inputs : List α) (d : Nat) (ws : List W),
      poolRun applyW sched m d ws inputs = inputs.map f := by
  intro inputs
  induction inputs with
  | nil => intro d ws; rfl
  | cons v rest ih => intro d ws; simp [poolRun, hpure, ih]

theorem poolStates_length (applyW : W → α → W × γ) (sched : Nat → Nat) (m : W) :
    ∀ (inputs : List α) (d : Nat) (ws : List W),
      (poolStates applyW sched m d ws inputs).length = ws.length := by
  intro inputs
  induction inputs with
  | nil => intro d ws; rfl
  | cons v rest ih => intro d ws; simp [poolStates, ih]

theorem poolRun_append (applyW : W → α → W × γ) (sched : Nat → Nat) (m : W) :
    ∀ (l₁ l₂ : List α) (d : Nat) (ws : List W),
      poolRun applyW sched m d ws (l₁ ++ l₂) =
        poolRun applyW sched m d ws l₁ ++
          poolRun applyW sched m (d + l₁.length) (poolStates applyW sched m d ws l₁) l₂ := by
  intro l₁
  induction l₁ with
  | nil => intro l₂ d ws; simp [poolRun, poolStates]
  | cons v rest ih =>
    intro l₂ d ws
    have harith : d + (rest.length + 1) = d + 1 + rest.length := by omega
    simp only [List.cons_append, poolRun, poolStates, List.length_cons, harith,
      List.append_eq]
    rw [ih]

theorem seqMap_length (applyW : W → α → W × γ) :
    ∀ (inputs : List α) (m : W), (seqMap applyW m inputs).length = inputs.length := by
  intro inputs
  induction inputs with
  | nil => intro m; rfl
  | cons v rest ih => intro m; simp [seqMap, ih]

theorem seqMap_pure (applyW : W → α → W × γ) (f : α → γ)
    (hpure : ∀ s v, applyW s v = (s, f v)) :
    ∀ (inputs : List α) (m : W), seqMap applyW m inputs = inputs.map f := by
  intro inputs
  induction inputs with
  | nil => intro m; rfl
  | cons v rest ih => intro m; simp [seqMap, hpure, ih]

/-- A pool of a single worker is exactly the sequential stateful map: every
item is routed to the lone worker, whose state evolves over the full input
order. -/
theorem poolRun_single (applyW : W → α → W × γ) (sched : Nat → Nat) (m : W) :
    ∀ (inputs : List α) (d : Nat) (s : W),
      poolRun applyW sched m d [s] inputs = seqMap applyW s inputs := by
  intro inputs
  induction inputs with
  | nil => intro d s; rfl
  | cons v rest ih =>
    intro d s
    simp [poolRun, seqMap, ih, Nat.mod_one]

/-! ### The engine delivers exactly its pending stream -/

/-- Central theorem about the `next` loop, for either refill guard: starting
from any engine state with a nonempty worker pool (and a guard that admits
an empty queue), iterating `next` to exhaustion yields exactly the state's
pending stream — the queued responses first, then the responses of the
remaining inputs, in dispatch order. -/
theorem runAllWith_nextWith (c : Nat → Nat → Bool) (applyW : W → α → W × γ)
    (sched : Nat → Nat) :
    ∀ (fuel : Nat) (p : Pipeline α γ W), p.workers ≠ [] →
      c 0 p.workers.length = true →
      p.input.length + p.queue.length < fuel →
      runAllWith (nextWith c applyW sched) fuel p = pending applyW sched p := by
  intro fuel
  induction fuel with
  | zero => intro p _ _ hm; omega
  | succ fuel ih =>
    intro p hw hc hm
    have hwe : p.workers.isEmpty = false := by
      simpa [List.isEmpty_iff] using hw
    rw [runAllWith, nextWith, if_neg (by simp [hwe])]
    have hpend := refillWith_pending c applyW sched p
    have hmeas := refillWith_measure c applyW sched p
    have hwlen := refillWith_workers_length c applyW sched p
    cases hq : (refillWith c applyW sched p).queue with
    | nil =>
      have hin : (refillWith c applyW sched p).input = [] := by
        rcases refillWith_exit c applyW sched p with h | h
        · exact h
        · rw [hq, hwlen] at h
          simp only [List.length_nil] at h
          rw [hc] at h
          cases h
      rw [← hpend]
      simp [pending, hq, hin, poolRun]
    | cons g qrest =>
      simp only []
      have hw' : ({ refillWith c applyW sched p with queue := qrest } :
          Pipeline α γ W).workers ≠ [] := by
        intro hnil
        apply hw
        have : (refillWith c applyW sched p).workers = [] := hnil
        have hlen := hwlen
        rw [this] at hlen
        exact List.length_eq_zero.mp hlen.symm
      have hc' : c 0 ({ refillWith c applyW sched p with queue := qrest } :
          Pipeline α γ W).workers.length = true := by
        show c 0 (refillWith c applyW sched p).workers.length = true
        rw [hwlen]; exact hc
      have hm' : ({ refillWith c applyW sched p with queue := qrest } :
            Pipeline α γ W).input.length +
          ({ refillWith c applyW sched p with queue := qrest } :
            Pipeline α γ W).queue.length < fuel := by
        have h1 : (refillWith c applyW sched p).queue.length = qrest.length + 1 := by
          rw [hq]; simp
        show (refillWith c applyW sched p).input.length + qrest.length < fuel
        omega
      rw [ih _ hw' hc' hm']
      rw [← hpend]
      simp [pending, hq]

/-- With an empty worker pool, iterating `next` is the direct synchronous
path: the engine's own mapper is applied to each input in turn. -/
theorem runAllWith_direct (c : Nat → Nat → Bool) (applyW : W → α → W × γ)
    (sched : Nat → Nat) :
    ∀ (fuel : Nat) (p : Pipeline α γ W), p.workers = [] →
      p.input.length < fuel →
      runAllWith (nextWith c applyW sched) fuel p = seqMap applyW p.mapper p.input := by
  intro fuel
  induction fuel with
  | zero => intro p _ hm; omega
  | succ fuel ih =>
    intro p hw hm
    have hwe : p.workers.isEmpty = true := by simp [hw]
    rw [runAllWith, nextWith, if_pos (by simp [hwe])]
    cases hin : p.input with
    | nil => simp [hin, seqMap]
    | cons v rest =>
      simp only [hin]
      rw [ih _ (by simp [hw]) (by rw [hin] at hm; simp at hm ⊢; omega)]
      simp [seqMap]

/-- The owned pipeline with no workers is the sequential stateful map. -/
theorem Pipeline.run_zero (applyW : W → α → W × γ) (sched : Nat → Nat)
    (m : W) (inputs : List α) :
    Pipeline.run applyW sched 0 m inputs = seqMap applyW m inputs := by
  unfold Pipeline.run
  rw [runAllWith_direct cOwned applyW sched _ _ (by simp [Pipeline.new])
    (by simp [Pipeline.new])]
  rfl

/-- The owned pipeline with `w ≥ 1` workers delivers exactly the pool
semantics: the response to every input, in dispatch (= input) order. -/
theorem Pipeline.run_poolMap (applyW : W → α → W × γ) (sched : Nat → Nat)
    (w : Nat) (hw : 1 ≤ w) (m : W) (inputs : List α) :
    Pipeline.run applyW sched w m inputs = poolMap applyW sched w m inputs := by
  unfold Pipeline.run
  rw [runAllWith_nextWith cOwned applyW sched]
  · simp [pending, Pipeline.new, poolMap]
  · simp only [Pipeline.new, ne_eq, List.replicate_eq_nil_iff]
    omega
  · simp [Pipeline.new, cOwned]
  · simp [Pipeline.new]

/-- The scoped pipeline with requested worker count `w ≥ 1` spawns a single
worker (the clamp) and delivers the one-worker pool semantics. -/
theorem scopedRun_poolMap (applyW : W → α → W × γ) (sched : Nat → Nat)
    (w : Nat) (hw : 1 ≤ w) (m : W) (inputs : List α) :
    ScopedPipeline.run applyW sched w m inputs = poolMap applyW sched 1 m inputs := by
  have hmin : min w 1 = 1 := by omega
  unfold ScopedPipeline.run ScopedPipeline.new
  rw [hmin, runAllWith_nextWith cScoped applyW sched]
  · simp [pending, Pipeline.new, poolMap]
  · simp [Pipeline.new]
  · simp [Pipeline.new, cScoped]
  · simp [Pipeline.new]

/-- The scoped pipeline with no workers is the sequential stateful map. -/
theorem scopedRun_zero (applyW : W → α → W × γ) (sched : Nat → Nat)
    (m : W) (inputs : List α) :
    ScopedPipeline.run applyW sched 0 m inputs = seqMap applyW m inputs := by
  unfold ScopedPipeline.run ScopedPipeline.new
  rw [runAllWith_direct cScoped applyW sched _ _ (by simp [Pipeline.new])
    (by simp [Pipeline.new])]
  rfl

/-- The `k`-th entry of the pool semantics is the response computed for the
`k`-th input: the worker `sched k % w` applies its mapper state as evolved
over the items previously routed to it. -/
theorem poolMap_getElem (applyW : W → α → W × γ) (sched : Nat → Nat)
    (w : Nat) (hw : 1 ≤ w) (m : W) (inputs : List α) (k : Nat) (v : α)
    (hk : inputs[k]? = some v) :
    (poolMap applyW sched w m inputs)[k]? =
      some (applyW ((poolStates applyW sched m 0 (List.replicate w m) (inputs.take k)).getD
        (sched k % w) m) v).2 := by
  have hklen : k < inputs.length := by
    by_contra h
    rw [List.getElem?_eq_none (le_of_not_lt h)] at hk
    cases hk
  have hval : inputs[k] = v := by
    have h1 := List.getElem?_eq_getElem hklen
    rw [hk] at h1
    exact (Option.some.inj h1).symm
  have hsplit : inputs = inputs.take k ++ v :: inputs.drop (k + 1) := by
    conv_lhs => rw [← List.take_append_drop k inputs]
    rw [List.drop_eq_getElem_cons hklen, hval]
  have htklen : (inputs.take k).length = k := by
    simp [List.length_take]
    omega
  conv_lhs => rw [poolMap, hsplit, poolRun_append]
  rw [List.getElem?_append_right (by rw [poolRun_length, htklen])]
  rw [poolRun_length, htklen, Nat.sub_self]
  simp only [poolRun, List.getElem?_cons_zero, Nat.zero_add, htklen]
  rw [poolStates_length, List.length_replicate]

/-! ### Queue-length bounds (backpressure) -/

/-- One `next` call keeps the queue within `B` whenever the refill guard only
admits queue lengths up to `B`, and preserves the worker count. -/
theorem nextWith_queue_le (c : Nat → Nat → Bool) (applyW : W → α → W × γ)
    (sched : Nat → Nat) (B : Nat) (p : Pipeline α γ W)
    (hB : ∀ q, c q p.workers.length = true → q ≤ B)
    (hq : p.queue.length ≤ B) :
    ((nextWith c applyW sched p).2).queue.length ≤ B ∧
      ((nextWith c applyW sched p).2).workers.length = p.workers.length := by
  rw [nextWith]
  by_cases hwe : p.workers.isEmpty
  · rw [if_pos (by simp [hwe])]
    cases hin : p.input with
    | nil => exact ⟨hq, rfl⟩
    | cons v rest => exact ⟨hq, rfl⟩
  · rw [if_neg (by simp [hwe])]
    have hpeak := refillWith_queue_le c applyW sched B p.input.length p rfl hB
    have hwlen := refillWith_workers_length c applyW sched p
    have hmax : (refillWith c applyW sched p).queue.length ≤ B + 1 :=
      le_trans hpeak (max_le (by omega) (le_refl _))
    cases hq' : (refillWith c applyW sched p).queue with
    | nil =>
      refine ⟨?_, hwlen⟩
      show (refillWith c applyW sched p).queue.length ≤ B
      rw [hq']
      exact Nat.zero_le B
    | cons g qrest =>
      refine ⟨?_, hwlen⟩
      show qrest.length ≤ B
      rw [hq'] at hmax
      simp only [List.length_cons] at hmax
      omega

/-- The queue bound and worker count are preserved along any sequence of
`next` calls. -/
theorem iterNextWith_queue_le (c : Nat → Nat → Bool) (applyW : W → α → W × γ)
    (sched : Nat → Nat) (B w : Nat) (hB : ∀ q, c q w = true → q ≤ B) :
    ∀ (k : Nat) (p : Pipeline α γ W), p.workers.length = w → p.queue.length ≤ B →
      (iterNextWith (nextWith c applyW sched) k p).queue.length ≤ B ∧
        (iterNextWith (nextWith c applyW sched) k p).workers.length = w := by
  intro k
  induction k with
  | zero => intro p hw hq; exact ⟨hq, hw⟩
  | succ k ih =>
    intro p hw hq
    have hstep := nextWith_queue_le c applyW sched B p (by rw [hw]; exact hB) hq
    exact ih _ (hstep.2.trans hw) hstep.1

/-- Along the direct (no-worker) path, `next` never touches the queue, the
dispatch counter, or the worker list. -/
theorem iterNextWith_direct_untouched (c : Nat → Nat → Bool) (applyW : W → α → W × γ)
    (sched : Nat → Nat) :
    ∀ (k : Nat) (p : Pipeline α γ W), p.workers = [] →
      (iterNextWith (nextWith c applyW sched) k p).queue = p.queue ∧
        (iterNextWith (nextWith c applyW sched) k p).dispatched = p.dispatched ∧
        (iterNextWith (nextWith c applyW sched) k p).workers = [] ∧
        (iterNextWith (nextWith c applyW sched) k p).dispatchConnected
          = p.dispatchConnected := by
  intro k
  induction k with
  | zero => intro p hw; exact ⟨rfl, rfl, hw, rfl⟩
  | succ k ih =>
    intro p hw
    have hstep : (nextWith c applyW sched p).2.queue = p.queue ∧
        (nextWith c applyW sched p).2.dispatched = p.dispatched ∧
        (nextWith c applyW sched p).2.workers = [] ∧
        (nextWith c applyW sched p).2.dispatchConnected = p.dispatchConnected := by
      rw [nextWith, if_pos (by simp [hw])]
      cases hin : p.input with
      | nil => exact ⟨rfl, rfl, hw, rfl⟩
      | cons v rest => exact ⟨rfl, rfl, hw, rfl⟩
    have hiter := ih (nextWith c applyW sched p).2 hstep.2.2.1
    exact ⟨hiter.1.trans hstep.1, hiter.2.1.trans hstep.2.1, hiter.2.2.1,
      hiter.2.2.2.trans hstep.2.2.2⟩

/-! ### Worker loop and engine destruction -/

/-- The worker thread's loop (src/pipeline.rs lines 41-44):
`while let Ok((in_val, respond)) = dispatch_rx.recv() { respond.send(mapper.apply(in_val)) }`.
The list argument is the finite sequence of work items the worker receives
before its `recv` observes a disconnected dispatch channel; at that point
the loop exits and the thread terminates, returning (to `join`) with its
final mapper state and the responses it sent.  An empty list is a `recv`
that immediately observes the closed channel. -/
def workerLoop (applyW : W → α → W × γ) : W → List α → W × List γ
  | s, [] => (s, [])
  | s, v :: rest =>
    ((workerLoop applyW (applyW s v).1 rest).1,
      (applyW s v).2 :: (workerLoop applyW (applyW s v).1 rest).2)

/-- `Pipeline::drop` (src/pipeline.rs lines 66-72, identically
src/scoped_pipeline.rs lines 84-90): replace the shared dispatch sender
with a freshly created, immediately disconnected stand-in
(`dispatchConnected := false`), so every worker's next `recv` observes a
closed channel and receives nothing further (the `[]` fed to each
`workerLoop`); then drain the worker list, joining each thread.  The first
component is the engine after destruction; the second is the join result of
every worker, in order. -/
def Pipeline.drop (applyW : W → α → W × γ) (p : Pipeline α γ W) :
    Pipeline α γ W × List (W × List γ) :=
  ({ p with dispatchConnected := false, workers := [] },
    p.workers.map (fun s => workerLoop applyW s []))

/-! ### Capability failure (worker panic) -/

/-- Lifting of a fallible capability `applyE` (where `none` is an
irrecoverable fault — a panic inside `Mapper::apply`) to the worker-state
semantics: a worker that panics dies (`none` state) and its pending response
slot is never filled (`none` response, the dropped response sender); a dead
worker never produces a response. -/
def stepE (applyE : σ → α → Option (σ × β)) : Option σ → α → Option σ × Option β
  | none, _ => (none, none)
  | some s, v =>
    match applyE s v with
    | none => (none, none)
    | some r => (some r.1, some r.2)

/-- The consumer's view of a stream of response slots: each `next()` does
`rx.recv().unwrap()` on the front slot, so a filled slot (`some`) is
delivered and an abandoned slot (`none`, its sender dropped by a panicking
worker) makes the consuming call fail fatally.  Returns the values
delivered before the fatal failure, and whether a fatal failure occurred. -/
def consumeRun : List (Option β) → List β × Bool
  | [] => ([], false)
  | none :: _ => ([], true)
  | some b :: rest => (b :: (consumeRun rest).1, (consumeRun rest).2)

/-- If every slot before position `k` is filled and slot `k` is abandoned,
the consumer receives exactly the `k` earlier results and then fails
fatally — at the `next()` call whose output position is `k`. -/
theorem consumeRun_first_fault :
    ∀ (k : Nat) (l : List (Option β)),
      (∀ i, i < k → ∃ b, l[i]? = some (some b)) → l[k]? = some none →
      (consumeRun l).2 = true ∧ (consumeRun l).1.length = k := by
  intro k
  induction k with
  | zero =>
    intro l _ hk
    cases l with
    | nil => cases hk
    | cons o rest =>
      simp only [List.getElem?_cons_zero] at hk
      rw [Option.some.inj hk]
      exact ⟨rfl, rfl⟩
  | succ k ih =>
    intro l h1 hk
    obtain ⟨b, hb⟩ := h1 0 (Nat.succ_pos k)
    cases l with
    | nil => cases hb
    | cons o rest =>
      simp only [List.getElem?_cons_zero] at hb
      rw [Option.some.inj hb]
      have hrest := ih rest
        (fun i hi => by
          have := h1 (i + 1) (Nat.succ_lt_succ hi)
          simpa using this)
        (by simpa using hk)
      exact ⟨by simp [consumeRun, hrest.1], by simp [consumeRun, hrest.2]⟩

/-- A pool of exactly one worker clone is the sequential stateful map. -/
theorem poolMap_one (applyW : W → α → W × γ) (sched : Nat → Nat) (m : W)
    (inputs : List α) :
    poolMap applyW sched 1 m inputs = seqMap applyW m inputs := by
  unfold poolMap
  rw [List.replicate_one]
  exact poolRun_single applyW sched m inputs 0 m

/-! ### The claims -/

/-- Claim C1: for every worker count `w ≥ 0`, every finite input sequence,
and every pure mapping function `f` (a capability whose output is `f v` and
whose state never changes), the pipeline's output equals the sequential map
of `f` over the inputs, in order — for every schedule of items to workers —
and hence the output stream is identical across repeated runs (schedules)
and across different worker counts. -/
theorem claim_C1_pure_map (applyW : W → α → W × γ) (m : W) (inputs : List α)
    (f : α → γ) (hpure : ∀ s v, applyW s v = (s, f v)) :
    (∀ w sched, Pipeline.run applyW sched w m inputs = inputs.map f) ∧
    (∀ w₁ sched₁ w₂ sched₂,
      Pipeline.run applyW sched₁ w₁ m inputs = Pipeline.run applyW sched₂ w₂ m inputs) := by
  have hall : ∀ w sched, Pipeline.run applyW sched w m inputs = inputs.map f := by
    intro w sched
    cases w with
    | zero => rw [Pipeline.run_zero, seqMap_pure applyW f hpure]
    | succ w =>
      rw [Pipeline.run_poolMap applyW sched (w + 1) (by omega) m inputs]
      exact poolRun_pure applyW sched m f hpure inputs 0 _
  exact ⟨hall, fun w₁ s₁ w₂ s₂ => (hall w₁ s₁).trans (hall w₂ s₂).symm⟩

theorem claim_C1_witness :
    Pipeline.run (fun (s v : Nat) => (s, v + 1)) (fun _ => 0) 2 0 [5, 6, 7]
      = [5, 6, 7].map (fun v => v + 1) :=
  (claim_C1_pure_map (fun (s v : Nat) => (s, v + 1)) 0 [5, 6, 7] (fun v => v + 1)
    (fun _ _ => rfl)).1 2 (fun _ => 0)

/-- Claim C2: `Pipeline::new` spawns exactly the requested number of worker
threads, but `ScopedPipeline::new` does not: its `n_workers.min(1)` clamp
(src/scoped_pipeline.rs line 43) spawns `min w 1` threads, so a request for
2 workers spawns a single thread — the code contradicts the scoped variant
being behaviorally identical to the owned one. -/
theorem claim_C2_worker_spawn (m : W) (inputs : List α) (w : Nat) :
    (Pipeline.new w m inputs : Pipeline α γ W).workers.length = w ∧
    (ScopedPipeline.new w m inputs : Pipeline α γ W).workers.length = min w 1 ∧
    (ScopedPipeline.new 2 0 [0] : Pipeline Nat Nat Nat).workers.length = 1 := by
  exact ⟨by simp [Pipeline.new], by simp [ScopedPipeline.new, Pipeline.new],
    by simp [ScopedPipeline.new, Pipeline.new]⟩

/-- Claim C5: with a requested worker count of 0, no worker threads exist,
each `next` on an input `v :: rest` pulls exactly that one element and
applies the engine's sole mapper instance synchronously (evolving its
state), the produced stream is exactly the ordinary sequential (stateful)
lazy map, and no `next` ever touches the waiting queue or the dispatch
counter. -/
theorem claim_C5_zero_direct (applyW : W → α → W × γ) (sched : Nat → Nat)
    (m : W) (inputs : List α) :
    (Pipeline.new 0 m inputs : Pipeline α γ W).workers.length = 0 ∧
    (∀ (mp : W) (v : α) (rest : List α) (q : List γ) (d : Nat) (conn : Bool),
      nextWith cOwned applyW sched ⟨mp, v :: rest, q, d, [], conn⟩ =
        (some (applyW mp v).2, ⟨(applyW mp v).1, rest, q, d, [], conn⟩)) ∧
    Pipeline.run applyW sched 0 m inputs = seqMap applyW m inputs ∧
    (∀ k, (ownedAfter applyW sched 0 m inputs k).queue = [] ∧
      (ownedAfter applyW sched 0 m inputs k).dispatched = 0 ∧
      (ownedAfter applyW sched 0 m inputs k).workers = []) := by
  refine ⟨by simp [Pipeline.new], fun mp v rest q d conn => rfl,
    Pipeline.run_zero applyW sched m inputs, fun k => ?_⟩
  have h := iterNextWith_direct_untouched cOwned applyW sched k
    (Pipeline.new 0 m inputs) (by simp [Pipeline.new])
  exact ⟨h.1, h.2.1, h.2.2.1⟩

/-- Claim C6: for every worker count and schedule, the pipeline produces
exactly as many outputs as there are inputs before terminating, and giving
the iterator any number of extra `next` calls after exhaustion produces
nothing further. -/
theorem claim_C6_count (applyW : W → α → W × γ) (sched : Nat → Nat) (w : Nat)
    (m : W) (inputs : List α) :
    (Pipeline.run applyW sched w m inputs).length = inputs.length ∧
    ∀ extra, runAllWith (nextWith cOwned applyW sched) (inputs.length + 1 + extra)
        (Pipeline.new w m inputs) = Pipeline.run applyW sched w m inputs := by
  cases w with
  | zero =>
    constructor
    · rw [Pipeline.run_zero]
      exact seqMap_length applyW inputs m
    · intro extra
      rw [runAllWith_direct cOwned applyW sched _ _ (by simp [Pipeline.new])
        (by simp only [Pipeline.new]; omega)]
      rw [Pipeline.run_zero]
      rfl
  | succ w =>
    constructor
    · rw [Pipeline.run_poolMap applyW sched (w + 1) (by omega) m inputs]
      exact poolRun_length applyW sched m inputs 0 _
    · intro extra
      rw [runAllWith_nextWith cOwned applyW sched _ _
        (by simp only [Pipeline.new, ne_eq, List.replicate_eq_nil_iff]; omega)
        (by simp [Pipeline.new, cOwned])
        (by simp only [Pipeline.new]; simp; omega)]
      unfold Pipeline.run
      rw [runAllWith_nextWith cOwned applyW sched _ _
        (by simp only [Pipeline.new, ne_eq, List.replicate_eq_nil_iff]; omega)
        (by simp [Pipeline.new, cOwned])
        (by simp [Pipeline.new])]

/-- Claim C7: whenever the engine is discarded — regardless of how much of
the stream was consumed — its destructor disconnects the dispatch sender,
every worker's next `recv` observes the closed channel and its loop exits
at once with no further work, and every worker is joined (one join result
per spawned worker) before destruction completes; destruction is a total
function, so it always terminates, and the destroyed engine retains no
workers. -/
theorem claim_C7_shutdown (applyW : W → α → W × γ) (p : Pipeline α γ W) :
    (Pipeline.drop applyW p).1.dispatchConnected = false ∧
    (Pipeline.drop applyW p).1.workers = [] ∧
    (Pipeline.drop applyW p).2.length = p.workers.length ∧
    (∀ s : W, workerLoop applyW s [] = (s, [])) :=
  ⟨rfl, rfl, by simp [Pipeline.drop], fun s => rfl⟩

/-- Claim C10: whenever a single capability instance performs every
application — the owned variant with `w ∈ {0, 1}` and the scoped variant
for every requested worker count (its clamp spawns at most one worker) —
the output equals the sequential stateful map: one evolving mapper state
applied to every input in input order. -/
theorem claim_C10_single_instance (applyW : W → α → W × γ) (sched : Nat → Nat)
    (m : W) (inputs : List α) :
    Pipeline.run applyW sched 0 m inputs = seqMap applyW m inputs ∧
    Pipeline.run applyW sched 1 m inputs = seqMap applyW m inputs ∧
    ∀ n, ScopedPipeline.run applyW sched n m inputs = seqMap applyW m inputs := by
  refine ⟨Pipeline.run_zero applyW sched m inputs, ?_, fun n => ?_⟩
  · rw [Pipeline.run_poolMap applyW sched 1 (by omega) m inputs]
    exact poolMap_one applyW sched m inputs
  · cases n with
    | zero => exact scopedRun_zero applyW sched m inputs
    | succ n =>
      rw [scopedRun_poolMap applyW sched (n + 1) (by omega) m inputs]
      exact poolMap_one applyW sched m inputs

/-- Claim C3 counterexample: in the owned variant with one worker, during
the very first `next()` call the refill loop (guard `queue.len() <=
workers.len()`) dispatches until the waiting queue holds 2 response slots —
2 dispatched-but-uncollected items with a worker count of 1, refuting
"never exceeds the worker count". -/
theorem claim_C3_counterexample :
    (Pipeline.new 1 () [0, 1, 2] : Pipeline Nat Nat Unit).workers.length = 1 ∧
    (refillWith cOwned (fun (s : Unit) (v : Nat) => (s, v)) (fun _ => 0)
      (Pipeline.new 1 () [0, 1, 2])).queue.length = 2 := by
  constructor
  · simp [Pipeline.new]
  · simp [refillWith, dispatchOne, Pipeline.new, cOwned]

/-- Claim C3 amended: the number of dispatched-but-uncollected items never
exceeds the number of spawned workers **plus one** in the owned variant
(reaching `w + 1` mid-call, at the refill peak, and falling back to at most
`w` by the time each `next` returns), while in the scoped variant it never
exceeds the number of spawned workers (`min w 1`), even at the refill
peak.  (Queue length grows monotonically during a refill, so the
post-refill length bounds every moment inside the call.) -/
theorem claim_C3_amended (applyW : W → α → W × γ) (sched : Nat → Nat)
    (w : Nat) (m : W) (inputs : List α) (k : Nat) :
    (scopedAfter applyW sched w m inputs k).queue.length ≤ min w 1 ∧
    (refillWith cScoped applyW sched (scopedAfter applyW sched w m inputs k)).queue.length
      ≤ min w 1 ∧
    (ownedAfter applyW sched w m inputs k).queue.length ≤ w ∧
    (refillWith cOwned applyW sched (ownedAfter applyW sched w m inputs k)).queue.length
      ≤ w + 1 := by
  have howned : (ownedAfter applyW sched w m inputs k).queue.length ≤ w ∧
      (ownedAfter applyW sched w m inputs k).workers.length = w :=
    iterNextWith_queue_le cOwned applyW sched w w
      (fun q hq => by simpa [cOwned] using hq) k (Pipeline.new w m inputs)
      (by simp [Pipeline.new]) (by simp [Pipeline.new])
  have hownedpeak : (refillWith cOwned applyW sched
      (ownedAfter applyW sched w m inputs k)).queue.length ≤ w + 1 := by
    have h := refillWith_queue_le cOwned applyW sched w
      (ownedAfter applyW sched w m inputs k).input.length _ rfl
      (fun q hq => by
        have hlen := howned.2
        rw [show (ownedAfter applyW sched w m inputs k).workers.length = w from hlen] at hq
        simpa [cOwned] using hq)
    refine le_trans h (max_le ?_ (le_refl _))
    have := howned.1
    omega
  cases w with
  | zero =>
    have hnil : (ScopedPipeline.new 0 m inputs : Pipeline α γ W).workers = [] := by
      simp [ScopedPipeline.new, Pipeline.new]
    have h := iterNextWith_direct_untouched cScoped applyW sched k
      (ScopedPipeline.new 0 m inputs) hnil
    have hq0 : (scopedAfter applyW sched 0 m inputs k).queue = [] := by
      unfold scopedAfter
      rw [h.1]
      simp [ScopedPipeline.new, Pipeline.new]
    have hw0 : (scopedAfter applyW sched 0 m inputs k).workers = [] := by
      unfold scopedAfter
      exact h.2.2.1
    have hrefl : refillWith cScoped applyW sched (scopedAfter applyW sched 0 m inputs k)
        = scopedAfter applyW sched 0 m inputs k :=
      refillWith_of_guard_false cScoped applyW sched _ (by simp [hw0, cScoped])
    exact ⟨by simp [hq0], by rw [hrefl]; simp [hq0], howned.1, hownedpeak⟩
  | succ n =>
    have hstart : (ScopedPipeline.new (n + 1) m inputs : Pipeline α γ W).workers.length
        = 1 := by
      simp [ScopedPipeline.new, Pipeline.new]
    have hscoped : (scopedAfter applyW sched (n + 1) m inputs k).queue.length ≤ 0 ∧
        (scopedAfter applyW sched (n + 1) m inputs k).workers.length = 1 :=
      iterNextWith_queue_le cScoped applyW sched 0 1
        (fun q hq => by simp [cScoped] at hq; omega) k
        (ScopedPipeline.new (n + 1) m inputs) hstart
        (by simp [ScopedPipeline.new, Pipeline.new])
    have hmin : min (n + 1) 1 = 1 := by omega
    refine ⟨?_, ?_, howned.1, hownedpeak⟩
    · rw [hmin]
      exact le_trans hscoped.1 (by omega)
    · rw [hmin]
      have h := refillWith_queue_le cScoped applyW sched 0
        (scopedAfter applyW sched (n + 1) m inputs k).input.length _ rfl
        (fun q hq => by
          have hlen := hscoped.2
          rw [show (scopedAfter applyW sched (n + 1) m inputs k).workers.length = 1
            from hlen] at hq
          simp [cScoped] at hq
          omega)
      refine le_trans h (max_le ?_ (le_refl _))
      have := hscoped.1
      omega

/-- Claim C9: along any sequence of `next()` calls on the owned variant, the
waiting queue holds at most `w` response slots whenever `next()` returns
(and on entry), and at most `w + 1` slots at the refill peak inside a call
— the refill loop stops only once the queue length exceeds the worker
count. -/
theorem claim_C9_owned_bound (applyW : W → α → W × γ) (sched : Nat → Nat)
    (w : Nat) (m : W) (inputs : List α) (k : Nat) :
    (ownedAfter applyW sched w m inputs k).queue.length ≤ w ∧
    (refillWith cOwned applyW sched (ownedAfter applyW sched w m inputs k)).queue.length
      ≤ w + 1 ∧
    ((nextWith cOwned applyW sched (ownedAfter applyW sched w m inputs k)).2).queue.length
      ≤ w := by
  have howned : (ownedAfter applyW sched w m inputs k).queue.length ≤ w ∧
      (ownedAfter applyW sched w m inputs k).workers.length = w :=
    iterNextWith_queue_le cOwned applyW sched w w
      (fun q hq => by simpa [cOwned] using hq) k (Pipeline.new w m inputs)
      (by simp [Pipeline.new]) (by simp [Pipeline.new])
  refine ⟨howned.1, ?_, ?_⟩
  · have h := refillWith_queue_le cOwned applyW sched w
      (ownedAfter applyW sched w m inputs k).input.length _ rfl
      (fun q hq => by
        rw [show (ownedAfter applyW sched w m inputs k).workers.length = w
          from howned.2] at hq
        simpa [cOwned] using hq)
    refine le_trans h (max_le ?_ (le_refl _))
    have := howned.1
    omega
  · exact (nextWith_queue_le cOwned applyW sched w _
      (fun q hq => by
        rw [show (ownedAfter applyW sched w m inputs k).workers.length = w
          from howned.2] at hq
        simpa [cOwned] using hq)
      howned.1).1

/-- Claim C4: with `w ≥ 1` workers, outputs are delivered in strict dispatch
order for every mapper and every schedule: the `k`-th value `next()`
produces is the response computed for the `k`-th input element — the
assigned worker's mapper clone (its state evolved over the items previously
routed to it) applied to that element — regardless of completion order.
Holds for the owned variant with its `w` workers and for the scoped variant
with its single spawned worker. -/
theorem claim_C4_fifo (applyW : W → α → W × γ) (sched : Nat → Nat) (w : Nat)
    (hw : 1 ≤ w) (m : W) (inputs : List α) (k : Nat) (v : α)
    (hk : inputs[k]? = some v) :
    (Pipeline.run applyW sched w m inputs)[k]? =
      some (applyW ((poolStates applyW sched m 0 (List.replicate w m)
        (inputs.take k)).getD (sched k % w) m) v).2 ∧
    (ScopedPipeline.run applyW sched w m inputs)[k]? =
      some (applyW ((poolStates applyW sched m 0 (List.replicate 1 m)
        (inputs.take k)).getD (sched k % 1) m) v).2 := by
  constructor
  · rw [Pipeline.run_poolMap applyW sched w hw m inputs]
    exact poolMap_getElem applyW sched w hw m inputs k v hk
  · rw [scopedRun_poolMap applyW sched w hw m inputs]
    exact poolMap_getElem applyW sched 1 (by omega) m inputs k v hk

theorem claim_C4_witness :
    ([3, 4, 5] : List Nat)[1]? = some 4 ∧
    (Pipeline.run (fun (s v : Nat) => (s + 1, v * 2)) (fun _ => 0) 1 0 [3, 4, 5])[1]?
      = some (4 * 2) :=
  ⟨by decide,
    (claim_C4_fifo (fun (s v : Nat) => (s + 1, v * 2)) (fun _ => 0) 1 (by decide)
      0 [3, 4, 5] 1 4 (by decide)).1⟩

/-- Claim C8: if the capability raises an irrecoverable fault while
processing the item at position `k` (its assigned worker is alive with
state `s` and `applyE s v` faults) and every earlier item's response was
produced normally, then the failed item's response slot is never filled
(the item is dispatched exactly once — not retried), and the consumer
receives exactly the `k` earlier results before the fatal failure, which
surfaces at the `next()` call whose output position is `k` (the item is not
skipped: position `k` delivers no other item's result). -/
theorem claim_C8_fault (applyE : σ → α → Option (σ × β)) (sched : Nat → Nat)
    (w : Nat) (hw : 1 ≤ w) (m : σ) (inputs : List α) (k : Nat) (v : α) (s : σ)
    (hk : inputs[k]? = some v)
    (hs : (poolStates (stepE applyE) sched (some m) 0 (List.replicate w (some m))
      (inputs.take k)).getD (sched k % w) (some m) = some s)
    (hf : applyE s v = none)
    (hprev : ∀ i, i < k → ∃ b,
      (poolMap (stepE applyE) sched w (some m) inputs)[i]? = some (some b)) :
    (poolMap (stepE applyE) sched w (some m) inputs)[k]? = some none ∧
    (consumeRun (Pipeline.run (stepE applyE) sched w (some m) inputs)).2 = true ∧
    (consumeRun (Pipeline.run (stepE applyE) sched w (some m) inputs)).1.length = k := by
  have hslot : (poolMap (stepE applyE) sched w (some m) inputs)[k]? = some none := by
    rw [poolMap_getElem (stepE applyE) sched w hw (some m) inputs k v hk, hs]
    simp [stepE, hf]
  have hrun := Pipeline.run_poolMap (stepE applyE) sched w hw (some m) inputs
  have hcons := consumeRun_first_fault k
    (poolMap (stepE applyE) sched w (some m) inputs) hprev hslot
  rw [hrun]
  exact ⟨hslot, hcons.1, hcons.2⟩

theorem claim_C8_witness :
    ((fun (_ : Unit) (v : Nat) => if v = 1 then none else some ((), v)) () 1 = none) ∧
    (poolMap (stepE (fun (_ : Unit) (v : Nat) => if v = 1 then none else some ((), v)))
      (fun _ => 0) 1 (some ()) [0, 1, 2])[1]? = some none ∧
    (consumeRun (Pipeline.run
      (stepE (fun (_ : Unit) (v : Nat) => if v = 1 then none else some ((), v)))
      (fun _ => 0) 1 (some ()) [0, 1, 2])).2 = true ∧
    (consumeRun (Pipeline.run
      (stepE (fun (_ : Unit) (v : Nat) => if v = 1 then none else some ((), v)))
      (fun _ => 0) 1 (some ()) [0, 1, 2])).1.length = 1 := by
  have h := claim_C8_fault (fun (_ : Unit) (v : Nat) => if v = 1 then none else some ((), v))
    (fun _ => 0) 1 (by decide) () [0, 1, 2] 1 1 ()
    (by decide) (by decide) (by decide)
    (fun i hi => by
      have hi0 : i = 0 := by omega
      subst hi0
      exact ⟨0, by decide⟩)
  exact ⟨by decide, h.1, h.2.1, h.2.2⟩

end Plmap
